/-
Verification of the active-set QP solver (gtsam_unstable/linear/QPSolver.h).

The repository provides the header `QPSolver.h`: the `QPState` struct, the
`QPSolver` class declaration, the inline template `collectDualJacobians`,
and the `InfeasibleInitialValues` exception class.  The implementation file
(`QPSolver.cpp`) is not part of the sources, so the bodies of
`computeStepSize`, `identifyLeavingConstraint`, `identifyActiveConstraints`,
`iterate`, `optimize`, `buildDualGraph` and `createDualFactor` are modelled
from the specification (spec.md §4.5 - §4.8); such definitions carry a
`Modelled from the spec:` note in their doc comment.

Real-valued quantities (`double` in the source) are embedded as exact
rationals `ℚ`.  The external sparse Gaussian elimination solver
(spec §2.5/§4.4, an "external collaborator" outside the specified core) is
taken as an explicit parameter: a pair of oracle functions producing the
primal delta and the dual solution for the current working set.
-/
import Mathlib

set_option maxRecDepth 4000

namespace QPSolver

/-- Variable identifiers (`gtsam::Key`). -/
abbrev Key := Nat

/-- A vector value: one dense block of rationals. -/
abbrev Vec := List ℚ

/-- `VectorValues`: association list from key to its vector block. -/
abbrev VV := List (Key × Vec)

/-- Scalar duals map: each inequality is one row, so the Lagrange multiplier
attached to a `dualKey` is a scalar. -/
abbrev Duals := List (Key × ℚ)

/-- Lookup in an association list keyed by `Key`. -/
def lookupA {α : Type} : List (Key × α) → Key → Option α
  | [], _ => none
  | kv :: rest, k => if kv.1 = k then some kv.2 else lookupA rest k

/-- Remove the entry for a key from an association list. -/
def eraseA {α : Type} (l : List (Key × α)) (k : Key) : List (Key × α) :=
  l.filter (fun kv => decide (kv.1 ≠ k))

/-- Dot product of two dense blocks. -/
def dot (a b : Vec) : ℚ :=
  (List.zipWith (fun x y => x * y) a b).foldr (fun x s => x + s) 0

/-- Infinity norm of a dense block. -/
def vnormInf (v : Vec) : ℚ :=
  v.foldr (fun a m => max |a| m) 0

/-- Infinity norm of a `VectorValues`. -/
def normInf (x : VV) : ℚ :=
  x.foldr (fun kv m => max (vnormInf kv.2) m) 0

/-- Pointwise `v + α • w` on dense blocks (lengths match in well-formed data). -/
def vaxpy (α : ℚ) (v w : Vec) : Vec :=
  List.zipWith (fun a b => a + α * b) v w

/-- `x + α • p` on `VectorValues`: every key of `x` is updated with the
corresponding block of `p` (missing blocks of `p` count as zero). -/
def scaledAdd (x : VV) (α : ℚ) (p : VV) : VV :=
  x.map (fun kv =>
    match lookupA p kv.1 with
    | some w => (kv.1, vaxpy α kv.2 w)
    | none => kv)

/-- A linear inequality factor `aᵀx ≤ b` (gtsam `LinearInequality`: a single
row).  `A` holds the per-key coefficient blocks, `dualKey` identifies its
Lagrange multiplier, `active` says whether it is in the working set. -/
structure InequalityFactor where
  A : List (Key × Vec)
  b : ℚ
  dualKey : Key
  active : Bool
deriving DecidableEq, Repr

/-- `aᵀx` for an inequality row at the point `x`. -/
def rowDot (A : List (Key × Vec)) (x : VV) : ℚ :=
  A.foldr (fun ka s => s + dot ka.2 ((lookupA x ka.1).getD [])) 0

/-- Residual `aᵀx − b` of an inequality at `x`. -/
def residual (f : InequalityFactor) (x : VV) : ℚ :=
  rowDot f.A x - f.b

/-- The working set is the inequality graph with active flags
(spec §3: "The working set is the inequality graph"). -/
abbrev WorkingSet := List InequalityFactor

/-- Set the active flag of the factor at position `i`. -/
def setActive (ws : WorkingSet) (i : Nat) (a : Bool) : WorkingSet :=
  match ws.get? i with
  | some f => ws.set i { f with active := a }
  | none => ws

/-- Solver state, mirroring the `QPState` struct of the source header. -/
structure QPState where
  values : VV
  duals : Duals
  workingSet : WorkingSet
  converged : Bool
  iterations : Nat
deriving DecidableEq, Repr

/-- Error taxonomy.  `infeasibleInitialValues` mirrors the source's
`InfeasibleInitialValues` exception class, which carries no data beyond a
fixed description string.  `maxIterationsExceeded` is modelled from the spec
(§4.8/§7): it carries the last `QPState`. -/
inductive QPError where
  | infeasibleInitialValues : QPError
  | maxIterationsExceeded : QPState → QPError
deriving DecidableEq, Repr

/-- Modelled from the spec: the external GaussianSolver contract (spec
§2.5, §4.4).  `primalDelta ws x` is the primal delta `p` produced by
eliminating `baseGraph ∪ {active inequalities as hard equalities}`;
`dualSolve ws x` is the multiplier solution of the dual graph built at
`(ws, x)`.  Neither implementation is part of the sources. -/
structure Oracles where
  primalDelta : WorkingSet → VV → VV
  dualSolve : WorkingSet → VV → Duals

/-- Threshold on `‖p‖∞` for inner stationarity (spec §6, `primal_tol`). -/
def primalTol : ℚ := 1 / 10 ^ 7

/-- Threshold for the leaving-constraint test (spec §4.7/§6, `dual_tol`). -/
def dualTol : ℚ := 1 / 10 ^ 9

/-- Tolerance classifying initial residuals (spec §4.8/§6, `feas_tol`). -/
def feasTol : ℚ := 1 / 10 ^ 7

/-- Numerical floor on step denominators (spec §4.6: treat `|den| < 1e-10`
as zero). -/
def denFloor : ℚ := 1 / 10 ^ 10

/-- Tie tolerance on step lengths (spec §4.6: equal within `1e-12`). -/
def stepTieTol : ℚ := 1 / 10 ^ 12

/-- Modelled from the spec (§4.6, StepEngine): the step length `α_i` an
inactive inequality contributes, or `none` when the constraint is skipped:
active constraints are not considered, and a denominator `aᵀp` that is
`≤ 0` or below the `1e-10` floor cannot block. -/
def alphaCand (xk p : VV) (f : InequalityFactor) : Option ℚ :=
  if f.active then none
  else
    let den := rowDot f.A p
    if den < denFloor then none
    else some ((f.b - rowDot f.A xk) / den)

/-- The candidate step length of the working-set factor at index `i`. -/
def candAt (ws : WorkingSet) (xk p : VV) (i : Nat) : Option ℚ :=
  (ws.get? i).bind (alphaCand xk p)

/-- Minimum of all candidate step lengths, starting from `1`. -/
def minAlphaAux (xk p : VV) : WorkingSet → ℚ → ℚ
  | [], m => m
  | f :: rest, m =>
    match alphaCand xk p f with
    | some a => minAlphaAux xk p rest (min m a)
    | none => minAlphaAux xk p rest m

/-- First factor index whose candidate step length is `≤ bound`. -/
def firstBlockingAux (xk p : VV) (bound : ℚ) : Nat → WorkingSet → Option Nat
  | _, [] => none
  | i, f :: rest =>
    match alphaCand xk p f with
    | some a => if a ≤ bound then some i else firstBlockingAux xk p bound (i + 1) rest
    | none => firstBlockingAux xk p bound (i + 1) rest

/-- Modelled from the spec: `QPSolver::computeStepSize` (declaration at
QPSolver.h:176-178, body in the missing QPSolver.cpp; behaviour from spec
§4.6).  Returns `(α, blockingIndex)` with `α = min(1, min_i α_i)` over the
inactive inequalities that can block; `blockingIndex = none` exactly when
`α = 1`, otherwise the lowest factor index whose step length ties the
minimum within `1e-12`. -/
def computeStepSize (ws : WorkingSet) (xk p : VV) : ℚ × Option Nat :=
  let m := minAlphaAux xk p ws 1
  if m = 1 then (1, none)
  else (m, firstBlockingAux xk p (m + stepTieTol) 0 ws)

/-- The multiplier of a dual key (`0` when absent). -/
def lamOf (lams : Duals) (k : Key) : ℚ :=
  (lookupA lams k).getD 0

/-- Accumulator loop for the leaving-constraint search: keep the index of
the largest multiplier strictly above the running maximum. -/
def ilcAux (lams : Duals) : List InequalityFactor → Nat → ℚ → Option Nat → Option Nat
  | [], _, _, best => best
  | f :: rest, i, maxL, best =>
    if f.active = true ∧ maxL < lamOf lams f.dualKey then
      ilcAux lams rest (i + 1) (lamOf lams f.dualKey) (some i)
    else
      ilcAux lams rest (i + 1) maxL best

/-- Modelled from the spec: `QPSolver::identifyLeavingConstraint`
(declaration at QPSolver.h:165-166, body in the missing QPSolver.cpp;
behaviour from spec §4.7).  Returns the index of the active inequality with
the largest positive multiplier, `none` when every active multiplier is
`≤ 0` within the tolerance `1e-9`; the lowest index wins ties. -/
def identifyLeavingConstraint (ws : WorkingSet) (lams : Duals) : Option Nat :=
  ilcAux lams ws 0 dualTol none

/-- Modelled from the spec: `QPSolver::identifyActiveConstraints`
(declaration at QPSolver.h:186-189, body in the missing QPSolver.cpp;
behaviour from spec §4.8 Initialization).  Residual `> feas_tol` raises
`InfeasibleInitial`; within the boundary band the constraint is activated;
strictly interior constraints are activated only on warm start with a
strictly positive dual. -/
def identifyActiveConstraints (ineqs : List InequalityFactor) (x0 : VV)
    (duals0 : Duals) (useWarmStart : Bool) : Except QPError WorkingSet :=
  match ineqs with
  | [] => .ok []
  | f :: rest =>
    let r := residual f x0
    if feasTol < r then .error .infeasibleInitialValues
    else
      match identifyActiveConstraints rest x0 duals0 useWarmStart with
      | .error e => .error e
      | .ok ws =>
        if -feasTol ≤ r then .ok ({ f with active := true } :: ws)
        else
          let warmActive :=
            useWarmStart &&
              (match lookupA duals0 f.dualKey with
               | some lam => decide (0 < lam)
               | none => false)
          .ok ({ f with active := warmActive } :: ws)

/-- Modelled from the spec: `QPSolver::iterate` (declaration at
QPSolver.h:180-181, body in the missing QPSolver.cpp; behaviour from spec
§4.8 Iteration step).  Stationary case: solve the dual graph; no leaving
constraint means convergence, otherwise the worst constraint is
deactivated and its dual entry cleared.  Non-stationary case: take the
blocked step and activate the blocking constraint. -/
def iterate (or : Oracles) (s : QPState) : QPState :=
  let p := or.primalDelta s.workingSet s.values
  if normInf p ≤ primalTol then
    let lams := or.dualSolve s.workingSet s.values
    match identifyLeavingConstraint s.workingSet lams with
    | none =>
      { values := s.values, duals := lams, workingSet := s.workingSet,
        converged := true, iterations := s.iterations + 1 }
    | some idx =>
      let cleared :=
        match s.workingSet.get? idx with
        | some f => eraseA lams f.dualKey
        | none => lams
      { values := s.values, duals := cleared,
        workingSet := setActive s.workingSet idx false,
        converged := false, iterations := s.iterations + 1 }
  else
    let st := computeStepSize s.workingSet s.values p
    let ws' :=
      match st.2 with
      | some i => setActive s.workingSet i true
      | none => s.workingSet
    { values := scaledAdd s.values st.1 p, duals := s.duals,
      workingSet := ws', converged := false, iterations := s.iterations + 1 }

/-- Default iteration cap (spec §4.8/§6: default 100).  The source's
`optimize` (QPSolver.h:196-197) takes only `initialValues`, `duals` and
`useWarmStart`, so no caller-supplied cap exists. -/
def maxIterations : Nat := 100

/-- Modelled from the spec: the outer driver loop of `QPSolver::optimize`
(spec §4.8): iterate until converged or the iteration count reaches the
cap; non-convergence raises `MaxIterationsExceeded` carrying the last
state. -/
def optimizeLoop (or : Oracles) : Nat → QPState → Except QPError QPState
  | 0, s => if s.converged then .ok s else .error (.maxIterationsExceeded s)
  | fuel + 1, s =>
    if s.converged then .ok s
    else optimizeLoop or fuel (iterate or s)

/-- Modelled from the spec: `QPSolver::optimize` (declaration at
QPSolver.h:196-197, body in the missing QPSolver.cpp; behaviour from spec
§4.8 Outer driver), exposing the final `QPState`.  The argument list
follows the source declaration: initial values, initial duals, warm-start
flag. -/
def optimizeState (or : Oracles) (ineqs : List InequalityFactor) (initialValues : VV)
    (duals : Duals) (useWarmStart : Bool) : Except QPError QPState :=
  match identifyActiveConstraints ineqs initialValues duals useWarmStart with
  | .error e => .error e
  | .ok ws0 =>
    optimizeLoop or maxIterations
      { values := initialValues, duals := duals, workingSet := ws0,
        converged := false, iterations := 0 }

/-- Modelled from the spec: `QPSolver::optimize` returning the
`(primal, dual)` solution pair, as declared in the source. -/
def optimize (or : Oracles) (ineqs : List InequalityFactor) (initialValues : VV)
    (duals : Duals) (useWarmStart : Bool) : Except QPError (VV × Duals) :=
  match optimizeState or ineqs initialValues duals useWarmStart with
  | .error e => .error e
  | .ok s => .ok (s.values, s.duals)

/-! Dual-graph construction.  `collectDualJacobians` is given inline in the
source header (QPSolver.h:77-91) as a template over the factor type; it is
embedded over a view exposing exactly the operations the template uses:
`find`, `getA`, `dualKey`, `active`. -/

/-- Dense matrix as a list of rows. -/
abbrev Mat := List (List ℚ)

/-- Matrix transpose. -/
def transposeM (m : Mat) : Mat :=
  match m with
  | [] => []
  | r :: _ => (List.range r.length).map (fun j => m.map (fun row => row.getD j 0))

/-- View of a constraint factor (gtsam `LinearEquality` or
`LinearInequality`) with the operations used by `collectDualJacobians`:
ordered keys, one Jacobian block per key slot, the dual key and the active
flag. -/
structure ConstraintFactor where
  keys : List Key
  Ablocks : List Mat
  dualKey : Key
  active : Bool
deriving DecidableEq, Repr

/-- `factor->find(key)`: slot of a key in the factor's ordered key list. -/
def ConstraintFactor.find (f : ConstraintFactor) (k : Key) : Nat :=
  f.keys.indexOf k

/-- `factor->getA(slot)`: the Jacobian block at a slot. -/
def ConstraintFactor.getA (f : ConstraintFactor) (i : Nat) : Mat :=
  f.Ablocks.getD i []

/-- `VariableIndex`: key to the ordered factor indices referencing it. -/
abbrev VariableIndex := List (Key × List Nat)

/-- The `BOOST_FOREACH` loop body of `collectDualJacobians`: walk the
factor indices of the key, skip inactive factors, and contribute the
transposed Jacobian block at the key, keyed by the factor's dual key. -/
def collectAux (key : Key) (graph : List ConstraintFactor) : List Nat → List (Key × Mat)
  | [] => []
  | factorIx :: rest =>
    match graph.get? factorIx with
    | none => collectAux key graph rest
    | some factor =>
      if factor.active = false then collectAux key graph rest
      else (factor.dualKey, transposeM (factor.getA (factor.find key))) :: collectAux key graph rest

/-- `QPSolver::collectDualJacobians` (QPSolver.h:81-90): when the key is
absent from the variable index return no terms; otherwise collect one
A-term per active factor referencing the key. -/
def collectDualJacobians (key : Key) (graph : List ConstraintFactor)
    (variableIndex : VariableIndex) : List (Key × Mat) :=
  match lookupA variableIndex key with
  | none => []
  | some ixs => collectAux key graph ixs

/-- All keys referenced by a graph, in first-appearance order. -/
def graphKeys (g : List ConstraintFactor) : List Key :=
  (g.foldr (fun f acc => f.keys ++ acc) []).dedup

/-- Factor indices of a graph touching a key, ascending. -/
def indicesTouchingAux (k : Key) : Nat → List ConstraintFactor → List Nat
  | _, [] => []
  | i, f :: rest =>
    if k ∈ f.keys then i :: indicesTouchingAux k (i + 1) rest
    else indicesTouchingAux k (i + 1) rest

/-- Build the `VariableIndex` of a graph (spec §4.3: scan once, appending
each factor index to the entry of every key it references). -/
def buildVariableIndex (g : List ConstraintFactor) : VariableIndex :=
  (graphKeys g).map (fun k => (k, indicesTouchingAux k 0 g))

/-- Keys appearing in at least one constraint factor of the equality graph
or the inequality working set (the source's `constrainedKeys_`,
QPSolver.h:63). -/
def constrainedKeys (eqs ws : List ConstraintFactor) : List Key :=
  (graphKeys eqs ++ graphKeys ws).dedup

/-- One row-block of the dual graph: the stationarity equation of one
primal variable, with an A-block per touching constraint's dual key and
the gradient of the cost as right-hand side. -/
structure DualFactor where
  primalKey : Key
  Aterms : List (Key × Mat)
  rhs : Vec
deriving DecidableEq, Repr

/-- Modelled from the spec: `QPSolver::buildDualGraph` and
`createDualFactor` (declarations at QPSolver.h:94-127, bodies in the
missing QPSolver.cpp; behaviour from spec §4.5).  One dual factor per
constrained primal variable; A-blocks are collected from the equality
graph and from the working set; `gradf` abstracts the cost-gradient
right-hand side `∇f(xᵢ)` computed from the Hessian factors. -/
def buildDualGraph (eqs ws : List ConstraintFactor) (gradf : Key → Vec) :
    List DualFactor :=
  (constrainedKeys eqs ws).map
    (fun k =>
      { primalKey := k,
        Aterms := collectDualJacobians k eqs (buildVariableIndex eqs) ++
          collectDualJacobians k ws (buildVariableIndex ws),
        rhs := gradf k })

/-! Helper lemmas. -/

/-- Unfolding lemma for the rational absolute value, used to evaluate
concrete runs. -/
theorem absQ (a : ℚ) : |a| = if a < 0 then -a else a := by
  rcases lt_or_le a 0 with h | h
  · simp [abs_of_neg h, h]
  · simp [abs_of_nonneg h, not_lt.mpr h]

theorem optimizeLoop_done (or : Oracles) (f : Nat) (s : QPState)
    (h : s.converged = true) : optimizeLoop or f s = .ok s := by
  cases f <;> simp [optimizeLoop, h]

theorem optimizeLoop_step (or : Oracles) (f : Nat) (s : QPState)
    (h : s.converged = false) :
    optimizeLoop or (f + 1) s = optimizeLoop or f (iterate or s) := by
  simp [optimizeLoop, h]

theorem optimizeLoop_zero (or : Oracles) (s : QPState) (h : s.converged = false) :
    optimizeLoop or 0 s = .error (.maxIterationsExceeded s) := by
  simp [optimizeLoop, h]

theorem iterate_iterations (or : Oracles) (s : QPState) :
    (iterate or s).iterations = s.iterations + 1 := by
  by_cases hp : normInf (or.primalDelta s.workingSet s.values) ≤ primalTol
  · simp only [iterate, hp, if_true]
    split <;> rfl
  · simp only [iterate, hp, if_false]

/-- In the non-stationary branch, `iterate` takes the blocked step,
activates the blocking constraint, and keeps the duals. -/
theorem iterate_step (or : Oracles) (s : QPState)
    (h : ¬ normInf (or.primalDelta s.workingSet s.values) ≤ primalTol) :
    iterate or s =
      { values :=
          scaledAdd s.values
            (computeStepSize s.workingSet s.values
              (or.primalDelta s.workingSet s.values)).1
            (or.primalDelta s.workingSet s.values),
        duals := s.duals,
        workingSet :=
          match (computeStepSize s.workingSet s.values
              (or.primalDelta s.workingSet s.values)).2 with
          | some i => setActive s.workingSet i true
          | none => s.workingSet,
        converged := false, iterations := s.iterations + 1 } := by
  unfold iterate
  simp only [h, if_false]

/-- A converged output of `iterate` comes from the stationary branch with
no leaving constraint: the values and working set are unchanged and the
duals are the fresh dual solution. -/
theorem iterate_converged_inv (or : Oracles) (s : QPState)
    (h : (iterate or s).converged = true) :
    normInf (or.primalDelta s.workingSet s.values) ≤ primalTol ∧
      identifyLeavingConstraint s.workingSet
        (or.dualSolve s.workingSet s.values) = none ∧
      iterate or s =
        { values := s.values,
          duals := or.dualSolve s.workingSet s.values,
          workingSet := s.workingSet,
          converged := true, iterations := s.iterations + 1 } := by
  by_cases hp : normInf (or.primalDelta s.workingSet s.values) ≤ primalTol
  · refine ⟨hp, ?_⟩
    rcases hl : identifyLeavingConstraint s.workingSet
        (or.dualSolve s.workingSet s.values) with _ | idx
    · constructor
      · rfl
      · unfold iterate
        simp only [hp, if_true, hl]
    · exfalso
      unfold iterate at h
      simp only [hp, if_true, hl] at h
      exact Bool.false_ne_true h
  · exfalso
    rw [iterate_step or s hp] at h
    exact Bool.false_ne_true h

/-- An `ok` result of the loop is converged, and is either the input state
or the output of a final `iterate`. -/
theorem optimizeLoop_ok (or : Oracles) (f : Nat) (s s' : QPState)
    (h : optimizeLoop or f s = .ok s') :
    s'.converged = true ∧ (s' = s ∨ ∃ t, s' = iterate or t) := by
  induction f generalizing s with
  | zero =>
    cases hc : s.converged with
    | true =>
      rw [optimizeLoop_done or 0 s hc] at h
      cases h
      exact ⟨hc, Or.inl rfl⟩
    | false =>
      rw [optimizeLoop_zero or s hc] at h
      cases h
  | succ f ih =>
    cases hc : s.converged with
    | true =>
      rw [optimizeLoop_done or (f + 1) s hc] at h
      cases h
      exact ⟨hc, Or.inl rfl⟩
    | false =>
      rw [optimizeLoop_step or f s hc] at h
      rcases ih (iterate or s) h with ⟨h1, h2 | ⟨t, ht⟩⟩
      · exact ⟨h1, Or.inr ⟨s, h2⟩⟩
      · exact ⟨h1, Or.inr ⟨t, ht⟩⟩

/-- A `MaxIterationsExceeded` error carries a non-converged state whose
iteration count is the starting count plus the consumed fuel. -/
theorem optimizeLoop_error (or : Oracles) (f : Nat) (s s' : QPState)
    (h : optimizeLoop or f s = .error (.maxIterationsExceeded s')) :
    s'.converged = false ∧ s'.iterations = s.iterations + f := by
  induction f generalizing s with
  | zero =>
    cases hc : s.converged with
    | true =>
      rw [optimizeLoop_done or 0 s hc] at h
      cases h
    | false =>
      rw [optimizeLoop_zero or s hc] at h
      cases h
      exact ⟨hc, rfl⟩
  | succ f ih =>
    cases hc : s.converged with
    | true =>
      rw [optimizeLoop_done or (f + 1) s hc] at h
      cases h
    | false =>
      rw [optimizeLoop_step or f s hc] at h
      rcases ih (iterate or s) h with ⟨h1, h2⟩
      refine ⟨h1, ?_⟩
      rw [h2, iterate_iterations]
      omega

/-- Full characterization of the leaving-constraint accumulator loop:
either no factor improves on the running maximum `m` and the accumulator
`best` is returned, or the result is the position of the first factor
attaining the maximal multiplier strictly above `m`. -/
theorem ilcAux_spec (lams : Duals) :
    ∀ (l : List InequalityFactor) (i : Nat) (m : ℚ) (best : Option Nat),
      (ilcAux lams l i m best = best ∧
        ∀ j f, l.get? j = some f → f.active = true → lamOf lams f.dualKey ≤ m) ∨
      (∃ j f, l.get? j = some f ∧ f.active = true ∧ m < lamOf lams f.dualKey ∧
        ilcAux lams l i m best = some (i + j) ∧
        (∀ j' f', l.get? j' = some f' → f'.active = true →
          lamOf lams f'.dualKey ≤ lamOf lams f.dualKey) ∧
        (∀ j' f', j' < j → l.get? j' = some f' → f'.active = true →
          lamOf lams f'.dualKey < lamOf lams f.dualKey)) := by
  intro l
  induction l with
  | nil =>
    intro i m best
    left
    constructor
    · rfl
    · intro j f hj
      simp at hj
  | cons f rest ih =>
    intro i m best
    by_cases hcond : f.active = true ∧ m < lamOf lams f.dualKey
    · have hstep : ilcAux lams (f :: rest) i m best =
          ilcAux lams rest (i + 1) (lamOf lams f.dualKey) (some i) := by
        simp only [ilcAux, hcond, if_true, and_self]
      rcases ih (i + 1) (lamOf lams f.dualKey) (some i) with ⟨hr, hall⟩ | hb
      · right
        refine ⟨0, f, rfl, hcond.1, hcond.2, ?_, ?_, ?_⟩
        · rw [hstep, hr]
          congr 1
        · intro j' f' hj' ha'
          cases j' with
          | zero =>
            cases hj'
            exact le_refl _
          | succ j' => exact hall j' f' hj' ha'
        · intro j' f' hj'
          omega
      · rcases hb with ⟨j2, f2, hj2, ha2, hm2, hr2, hall2, hstrict2⟩
        right
        refine ⟨j2 + 1, f2, hj2, ha2, lt_trans hcond.2 hm2, ?_, ?_, ?_⟩
        · rw [hstep, hr2]
          congr 1
          omega
        · intro j' f' hj' ha'
          cases j' with
          | zero =>
            cases hj'
            exact le_of_lt hm2
          | succ j' => exact hall2 j' f' hj' ha'
        · intro j' f' hlt hj' ha'
          cases j' with
          | zero =>
            cases hj'
            exact hm2
          | succ j' => exact hstrict2 j' f' (by omega) hj' ha'
    · have hstep : ilcAux lams (f :: rest) i m best =
          ilcAux lams rest (i + 1) m best := by
        simp only [ilcAux]
        rw [if_neg hcond]
      have hhd : f.active = true → lamOf lams f.dualKey ≤ m := by
        intro ha
        by_contra hlt
        exact hcond ⟨ha, lt_of_not_le hlt⟩
      rcases ih (i + 1) m best with ⟨hr, hall⟩ | hb
      · left
        constructor
        · rw [hstep, hr]
        · intro j f' hj ha
          cases j with
          | zero =>
            cases hj
            exact hhd ha
          | succ j => exact hall j f' hj ha
      · rcases hb with ⟨j2, f2, hj2, ha2, hm2, hr2, hall2, hstrict2⟩
        right
        refine ⟨j2 + 1, f2, hj2, ha2, hm2, ?_, ?_, ?_⟩
        · rw [hstep, hr2]
          congr 1
          omega
        · intro j' f' hj' ha'
          cases j' with
          | zero =>
            cases hj'
            exact le_trans (hhd ha') (le_of_lt hm2)
          | succ j' => exact hall2 j' f' hj' ha'
        · intro j' f' hlt hj' ha'
          cases j' with
          | zero =>
            cases hj'
            exact lt_of_le_of_lt (hhd ha') hm2
          | succ j' => exact hstrict2 j' f' (by omega) hj' ha'

/-- The leaving-constraint search returns `none` exactly when every active
multiplier is at most `dual_tol`. -/
theorem identifyLeavingConstraint_none_iff (ws : WorkingSet) (lams : Duals) :
    identifyLeavingConstraint ws lams = none ↔
      ∀ j f, ws.get? j = some f → f.active = true →
        lamOf lams f.dualKey ≤ dualTol := by
  constructor
  · intro h
    rcases ilcAux_spec lams ws 0 dualTol none with ⟨_, hall⟩ | ⟨j, f, _, _, _, hr, _, _⟩
    · exact hall
    · rw [identifyLeavingConstraint] at h
      rw [h] at hr
      cases hr
  · intro hall
    rcases ilcAux_spec lams ws 0 dualTol none with ⟨hr, _⟩ | ⟨j, f, hj, ha, hm, _, _, _⟩
    · exact hr
    · exact absurd (hall j f hj ha) (not_le.mpr hm)

/-- A returned leaving index points to an active factor whose multiplier
exceeds `dual_tol`, is maximal, and is the lowest index attaining the
maximum. -/
theorem identifyLeavingConstraint_some (ws : WorkingSet) (lams : Duals) (r : Nat)
    (h : identifyLeavingConstraint ws lams = some r) :
    ∃ f, ws.get? r = some f ∧ f.active = true ∧
      dualTol < lamOf lams f.dualKey ∧
      (∀ j' f', ws.get? j' = some f' → f'.active = true →
        lamOf lams f'.dualKey ≤ lamOf lams f.dualKey) ∧
      (∀ j' f', j' < r → ws.get? j' = some f' → f'.active = true →
        lamOf lams f'.dualKey < lamOf lams f.dualKey) := by
  rcases ilcAux_spec lams ws 0 dualTol none with ⟨hr, _⟩ | ⟨j, f, hj, ha, hm, hr, hall, hstrict⟩
  · rw [identifyLeavingConstraint] at h
    rw [h] at hr
    cases hr
  · rw [identifyLeavingConstraint] at h
    rw [h] at hr
    injection hr with hr
    have hjr : j = r := by omega
    subst hjr
    exact ⟨f, hj, ha, hm, hall, hstrict⟩

theorem minAlphaAux_le_init (xk p : VV) :
    ∀ (l : WorkingSet) (m : ℚ), minAlphaAux xk p l m ≤ m := by
  intro l
  induction l with
  | nil => intro m; exact le_refl m
  | cons f rest ih =>
    intro m
    simp only [minAlphaAux]
    rcases alphaCand xk p f with _ | a
    · exact ih m
    · exact le_trans (ih (min m a)) (min_le_left m a)

theorem minAlphaAux_le_cand (xk p : VV) :
    ∀ (l : WorkingSet) (m : ℚ) (j : Nat) (f : InequalityFactor) (a : ℚ),
      l.get? j = some f → alphaCand xk p f = some a → minAlphaAux xk p l m ≤ a := by
  intro l
  induction l with
  | nil =>
    intro m j f a hj
    simp at hj
  | cons f0 rest ih =>
    intro m j f a hj hc
    cases j with
    | zero =>
      cases hj
      simp only [minAlphaAux, hc]
      exact le_trans (minAlphaAux_le_init xk p rest (min m a)) (min_le_right m a)
    | succ j =>
      simp only [minAlphaAux]
      rcases alphaCand xk p f0 with _ | a0
      · exact ih m j f a hj hc
      · exact ih (min m a0) j f a hj hc

theorem minAlphaAux_attained (xk p : VV) :
    ∀ (l : WorkingSet) (m : ℚ),
      minAlphaAux xk p l m = m ∨
        ∃ j f a, l.get? j = some f ∧ alphaCand xk p f = some a ∧
          minAlphaAux xk p l m = a := by
  intro l
  induction l with
  | nil => intro m; exact Or.inl rfl
  | cons f0 rest ih =>
    intro m
    rcases hc : alphaCand xk p f0 with _ | a0
    · rcases ih m with h | ⟨j, f, a, hj, hca, hval⟩
      · left
        simpa only [minAlphaAux, hc] using h
      · right
        exact ⟨j + 1, f, a, hj, hca, by simpa only [minAlphaAux, hc] using hval⟩
    · rcases ih (min m a0) with h | ⟨j, f, a, hj, hca, hval⟩
      · rcases le_total m a0 with hma | hma
        · left
          simp only [minAlphaAux, hc]
          rw [h, min_eq_left hma]
        · right
          refine ⟨0, f0, a0, rfl, hc, ?_⟩
          simp only [minAlphaAux, hc]
          rw [h, min_eq_right hma]
      · right
        exact ⟨j + 1, f, a, hj, hca, by simpa only [minAlphaAux, hc] using hval⟩

theorem firstBlockingAux_none (xk p : VV) (bound : ℚ) :
    ∀ (l : WorkingSet) (i : Nat), firstBlockingAux xk p bound i l = none →
      ∀ j f a, l.get? j = some f → alphaCand xk p f = some a → bound < a := by
  intro l
  induction l with
  | nil =>
    intro i _ j f a hj
    simp at hj
  | cons f0 rest ih =>
    intro i h j f a hj hc
    rcases hc0 : alphaCand xk p f0 with _ | a0
    · cases j with
      | zero =>
        cases hj
        rw [hc0] at hc
        cases hc
      | succ j =>
        simp only [firstBlockingAux, hc0] at h
        exact ih (i + 1) h j f a hj hc
    · simp only [firstBlockingAux, hc0] at h
      by_cases hb : a0 ≤ bound
      · rw [if_pos hb] at h
        cases h
      · rw [if_neg hb] at h
        cases j with
        | zero =>
          cases hj
          rw [hc0] at hc
          injection hc with hc
          rw [← hc]
          exact lt_of_not_le hb
        | succ j => exact ih (i + 1) h j f a hj hc

theorem firstBlockingAux_some (xk p : VV) (bound : ℚ) :
    ∀ (l : WorkingSet) (i r : Nat), firstBlockingAux xk p bound i l = some r →
      i ≤ r ∧
      (∃ f a, l.get? (r - i) = some f ∧ alphaCand xk p f = some a ∧ a ≤ bound) ∧
      (∀ j f' a', j < r - i → l.get? j = some f' → alphaCand xk p f' = some a' →
        bound < a') := by
  intro l
  induction l with
  | nil =>
    intro i r h
    cases h
  | cons f0 rest ih =>
    intro i r h
    rcases hc0 : alphaCand xk p f0 with _ | a0
    · simp only [firstBlockingAux, hc0] at h
      rcases ih (i + 1) r h with ⟨hir, ⟨f, a, hget, hca, hab⟩, hstrict⟩
      refine ⟨by omega, ⟨f, a, ?_, hca, hab⟩, ?_⟩
      · have : r - i = (r - (i + 1)) + 1 := by omega
        rw [this]
        exact hget
      · intro j f' a' hj hget' hca'
        cases j with
        | zero =>
          cases hget'
          rw [hc0] at hca'
          cases hca'
        | succ j =>
          refine hstrict j f' a' (by omega) hget' hca'
    · simp only [firstBlockingAux, hc0] at h
      by_cases hb : a0 ≤ bound
      · rw [if_pos hb] at h
        injection h with h
        subst h
        refine ⟨le_refl i, ⟨f0, a0, ?_, hc0, hb⟩, ?_⟩
        · simp
        · intro j f' a' hj
          omega
      · rw [if_neg hb] at h
        rcases ih (i + 1) r h with ⟨hir, ⟨f, a, hget, hca, hab⟩, hstrict⟩
        refine ⟨by omega, ⟨f, a, ?_, hca, hab⟩, ?_⟩
        · have : r - i = (r - (i + 1)) + 1 := by omega
          rw [this]
          exact hget
        · intro j f' a' hj hget' hca'
          cases j with
          | zero =>
            cases hget'
            rw [hc0] at hca'
            injection hca' with hca'
            rw [← hca']
            exact lt_of_not_le hb
          | succ j =>
            refine hstrict j f' a' (by omega) hget' hca'

theorem firstBlockingAux_exists (xk p : VV) (bound : ℚ) :
    ∀ (l : WorkingSet) (i : Nat) (j : Nat) (f : InequalityFactor) (a : ℚ),
      l.get? j = some f → alphaCand xk p f = some a → a ≤ bound →
      firstBlockingAux xk p bound i l ≠ none := by
  intro l
  induction l with
  | nil =>
    intro i j f a hj
    simp at hj
  | cons f0 rest ih =>
    intro i j f a hj hc hab
    cases j with
    | zero =>
      cases hj
      simp only [firstBlockingAux, hc, if_pos hab]
      exact Option.some_ne_none i
    | succ j =>
      rcases hc0 : alphaCand xk p f0 with _ | a0
      · simp only [firstBlockingAux, hc0]
        exact ih (i + 1) j f a hj hc hab
      · simp only [firstBlockingAux, hc0]
        by_cases hb : a0 ≤ bound
        · rw [if_pos hb]
          exact Option.some_ne_none i
        · rw [if_neg hb]
          exact ih (i + 1) j f a hj hc hab

/-- Any inequality whose initial residual exceeds `feas_tol` makes
`identifyActiveConstraints` fail with `InfeasibleInitial`. -/
theorem identifyActiveConstraints_error (x0 : VV) (duals0 : Duals) (w : Bool) :
    ∀ (ineqs : List InequalityFactor),
      (∃ j f, ineqs.get? j = some f ∧ feasTol < residual f x0) →
      identifyActiveConstraints ineqs x0 duals0 w = .error .infeasibleInitialValues := by
  intro ineqs
  induction ineqs with
  | nil =>
    rintro ⟨j, f, hj, _⟩
    simp at hj
  | cons f0 rest ih =>
    rintro ⟨j, f, hj, hviol⟩
    by_cases h0 : feasTol < residual f0 x0
    · simp only [identifyActiveConstraints]
      rw [if_pos h0]
    · cases j with
      | zero =>
        cases hj
        exact absurd hviol h0
      | succ j =>
        have hrest := ih ⟨j, f, hj, hviol⟩
        simp only [identifyActiveConstraints]
        rw [if_neg h0, hrest]

/-- Successful initialization classifies every inequality by its residual:
within the band it is activated; strictly interior it is activated exactly
by a warm start with a strictly positive stored dual. -/
theorem identifyActiveConstraints_ok (x0 : VV) (duals0 : Duals) (w : Bool) :
    ∀ (ineqs : List InequalityFactor) (ws : WorkingSet),
      identifyActiveConstraints ineqs x0 duals0 w = .ok ws →
      ∀ j f, ineqs.get? j = some f →
        residual f x0 ≤ feasTol ∧
        ws.get? j = some { f with active :=
          if -feasTol ≤ (residual f x0) then true
          else w &&
            (match lookupA duals0 f.dualKey with
             | some lam => decide (0 < lam)
             | none => false) } := by
  intro ineqs
  induction ineqs with
  | nil =>
    intro ws _ j f hj
    simp at hj
  | cons f0 rest ih =>
    intro ws h j f hj
    by_cases h0 : feasTol < residual f0 x0
    · simp only [identifyActiveConstraints] at h
      rw [if_pos h0] at h
      cases h
    · simp only [identifyActiveConstraints] at h
      rw [if_neg h0] at h
      rcases hrec : identifyActiveConstraints rest x0 duals0 w with e | ws'
      · rw [hrec] at h
        cases h
      · simp only [hrec] at h
        by_cases hband : -feasTol ≤ residual f0 x0
        · rw [if_pos hband] at h
          cases h
          cases j with
          | zero =>
            cases hj
            exact ⟨le_of_not_lt h0, by simp [hband]⟩
          | succ j => exact ih ws' hrec j f hj
        · rw [if_neg hband] at h
          cases h
          cases j with
          | zero =>
            cases hj
            exact ⟨le_of_not_lt h0, by simp [hband]⟩
          | succ j => exact ih ws' hrec j f hj

/-- The only error `identifyActiveConstraints` produces is
`InfeasibleInitial`. -/
theorem identifyActiveConstraints_error_inv (x0 : VV) (duals0 : Duals) (w : Bool) :
    ∀ (ineqs : List InequalityFactor) (e : QPError),
      identifyActiveConstraints ineqs x0 duals0 w = .error e →
      e = .infeasibleInitialValues := by
  intro ineqs
  induction ineqs with
  | nil =>
    intro e h
    cases h
  | cons f0 rest ih =>
    intro e h
    by_cases h0 : feasTol < residual f0 x0
    · simp only [identifyActiveConstraints] at h
      rw [if_pos h0] at h
      cases h
      rfl
    · simp only [identifyActiveConstraints] at h
      rw [if_neg h0] at h
      rcases hrec : identifyActiveConstraints rest x0 duals0 w with e' | ws'
      · rw [hrec] at h
        cases h
        exact ih _ hrec
      · simp only [hrec] at h
        by_cases hband : -feasTol ≤ residual f0 x0
        · rw [if_pos hband] at h
          cases h
        · rw [if_neg hband] at h
          cases h

/-- An `ok` result of `optimizeState` is a converged state produced by a
final `iterate`. -/
theorem optimizeState_ok (or : Oracles) (ineqs : List InequalityFactor)
    (x0 : VV) (d0 : Duals) (w : Bool) (s : QPState)
    (h : optimizeState or ineqs x0 d0 w = .ok s) :
    s.converged = true ∧ ∃ t, s = iterate or t := by
  unfold optimizeState at h
  rcases hia : identifyActiveConstraints ineqs x0 d0 w with e | ws0
  · rw [hia] at h
    cases h
  · rw [hia] at h
    rcases optimizeLoop_ok or maxIterations _ s h with ⟨hconv, hs | ⟨t, ht⟩⟩
    · rw [hs] at hconv
      cases hconv
    · exact ⟨hconv, t, ht⟩

/-- A `MaxIterationsExceeded` error of `optimizeState` carries a
non-converged state with exactly `maxIterations` iterations. -/
theorem optimizeState_error_max (or : Oracles) (ineqs : List InequalityFactor)
    (x0 : VV) (d0 : Duals) (w : Bool) (s : QPState)
    (h : optimizeState or ineqs x0 d0 w = .error (.maxIterationsExceeded s)) :
    s.converged = false ∧ s.iterations = maxIterations := by
  unfold optimizeState at h
  rcases hia : identifyActiveConstraints ineqs x0 d0 w with e | ws0
  · rw [hia] at h
    cases h
    cases identifyActiveConstraints_error_inv x0 d0 w ineqs _ hia
  · rw [hia] at h
    rcases optimizeLoop_error or maxIterations _ s h with ⟨h1, h2⟩
    exact ⟨h1, by simpa using h2⟩

/-- Declarative form of the A-terms of one dual row: one transposed block
per active factor referencing the key, in graph order.  Used to state the
characterization theorems of the dual-graph build. -/
def activeAterms (key : Key) (l : List ConstraintFactor) : List (Key × Mat) :=
  (l.filter (fun f => f.active && decide (key ∈ f.keys))).map
    (fun f => (f.dualKey, transposeM (f.getA (f.find key))))

theorem lookupA_map_self {β : Type} (h : Key → β) :
    ∀ (l : List Key) (key : Key),
      lookupA (l.map (fun k => (k, h k))) key =
        if key ∈ l then some (h key) else none := by
  intro l
  induction l with
  | nil =>
    intro key
    rfl
  | cons k0 rest ih =>
    intro key
    by_cases hk : k0 = key
    · subst hk
      simp [lookupA]
    · have hmem : key ∈ k0 :: rest ↔ key ∈ rest := by
        constructor
        · intro hm
          rcases List.mem_cons.mp hm with h' | h'
          · exact absurd h'.symm hk
          · exact h'
        · exact fun hm => List.mem_cons_of_mem k0 hm
      rw [List.map_cons]
      simp only [lookupA]
      rw [if_neg hk, ih key]
      exact if_congr hmem.symm rfl rfl

theorem graphKeys_mem (g : List ConstraintFactor) (k : Key) :
    k ∈ graphKeys g ↔ ∃ f, f ∈ g ∧ k ∈ f.keys := by
  rw [graphKeys, List.mem_dedup]
  induction g with
  | nil => simp
  | cons f0 rest ih =>
    simp only [List.foldr_cons, List.mem_append, ih]
    constructor
    · rintro (h | ⟨f, hf, hk⟩)
      · exact ⟨f0, List.mem_cons_self f0 rest, h⟩
      · exact ⟨f, List.mem_cons_of_mem f0 hf, hk⟩
    · rintro ⟨f, hf, hk⟩
      rcases List.mem_cons.mp hf with h | h
      · subst h
        exact Or.inl hk
      · exact Or.inr ⟨f, h, hk⟩

theorem buildVariableIndex_lookup (g : List ConstraintFactor) (k : Key) :
    lookupA (buildVariableIndex g) k =
      if k ∈ graphKeys g then some (indicesTouchingAux k 0 g) else none := by
  rw [buildVariableIndex, lookupA_map_self]

theorem collectAux_over_touching (key : Key) (g : List ConstraintFactor) :
    ∀ (tail : List ConstraintFactor) (i : Nat),
      (∀ j, tail.get? j = g.get? (i + j)) →
      collectAux key g (indicesTouchingAux key i tail) = activeAterms key tail := by
  intro tail
  induction tail with
  | nil =>
    intro i _
    rfl
  | cons f rest ih =>
    intro i hget
    have h0 : g.get? i = some f := by
      have h00 := hget 0
      rw [Nat.add_zero, List.get?_cons_zero] at h00
      exact h00.symm
    have hrest : ∀ j, rest.get? j = g.get? (i + 1 + j) := by
      intro j
      have := hget (j + 1)
      simp only [List.get?_cons_succ] at this
      rw [this]
      congr 1
      omega
    by_cases hk : key ∈ f.keys
    · simp only [indicesTouchingAux, if_pos hk]
      simp only [collectAux, h0]
      by_cases ha : f.active
      · have hactive : (f.active = false) = False := by simp [ha]
        simp only [hactive, if_false]
        rw [ih (i + 1) hrest]
        simp [activeAterms, ha, hk]
      · have hactive : (f.active = false) = True := by simp [ha]
        simp only [hactive, if_true]
        rw [ih (i + 1) hrest]
        simp [activeAterms, ha]
    · simp only [indicesTouchingAux, if_neg hk]
      rw [ih (i + 1) hrest]
      simp [activeAterms, hk]

/-- Against the canonical variable index of a graph,
`collectDualJacobians` computes exactly the transposed blocks of the
active factors referencing the key, in graph order. -/
theorem collectDualJacobians_canonical (key : Key) (g : List ConstraintFactor) :
    collectDualJacobians key g (buildVariableIndex g) = activeAterms key g := by
  rw [collectDualJacobians, buildVariableIndex_lookup]
  by_cases hk : key ∈ graphKeys g
  · rw [if_pos hk]
    exact collectAux_over_touching key g g 0 (fun j => by simp)
  · rw [if_neg hk]
    have hnone : ∀ f ∈ g, ¬(f.active && decide (key ∈ f.keys)) = true := by
      intro f hf hcontra
      simp only [Bool.and_eq_true, decide_eq_true_eq] at hcontra
      exact hk ((graphKeys_mem g key).mpr ⟨f, hf, hcontra.2⟩)
    rw [activeAterms, List.filter_eq_nil_iff.mpr hnone]
    rfl

/-- Every A-term collected by `collectAux` stems from an in-bounds, active
factor of the graph. -/
theorem collectAux_mem (key : Key) (g : List ConstraintFactor) :
    ∀ (ixs : List Nat) (t : Key × Mat), t ∈ collectAux key g ixs →
      ∃ i, i ∈ ixs ∧ ∃ f, g.get? i = some f ∧ f.active = true ∧
        t = (f.dualKey, transposeM (f.getA (f.find key))) := by
  intro ixs
  induction ixs with
  | nil =>
    intro t ht
    simp [collectAux] at ht
  | cons i0 rest ih =>
    intro t ht
    rcases hg : g.get? i0 with _ | f0
    · simp only [collectAux, hg] at ht
      rcases ih t ht with ⟨i, hi, hrest⟩
      exact ⟨i, List.mem_cons_of_mem i0 hi, hrest⟩
    · simp only [collectAux, hg] at ht
      by_cases ha : f0.active
      · have hactive : (f0.active = false) = False := by simp [ha]
        simp only [hactive, if_false] at ht
        rcases List.mem_cons.mp ht with h | h
        · exact ⟨i0, List.mem_cons_self i0 rest, f0, hg, ha, h⟩
        · rcases ih t h with ⟨i, hi, hrest⟩
          exact ⟨i, List.mem_cons_of_mem i0 hi, hrest⟩
      · have hactive : (f0.active = false) = True := by simp [ha]
        simp only [hactive, if_true] at ht
        rcases ih t ht with ⟨i, hi, hrest⟩
        exact ⟨i, List.mem_cons_of_mem i0 hi, hrest⟩

theorem candAt_eq_some (ws : WorkingSet) (xk p : VV) (i : Nat) (a : ℚ) :
    candAt ws xk p i = some a ↔
      ∃ f, ws.get? i = some f ∧ alphaCand xk p f = some a := by
  simp [candAt, Option.bind_eq_some]

theorem computeStepSize_of_min_one (ws : WorkingSet) (xk p : VV)
    (h : minAlphaAux xk p ws 1 = 1) : computeStepSize ws xk p = (1, none) := by
  simp [computeStepSize, h]

theorem computeStepSize_of_min_ne (ws : WorkingSet) (xk p : VV)
    (h : ¬ minAlphaAux xk p ws 1 = 1) :
    computeStepSize ws xk p =
      (minAlphaAux xk p ws 1,
        firstBlockingAux xk p (minAlphaAux xk p ws 1 + stepTieTol) 0 ws) := by
  simp [computeStepSize, h]

/-- C2: `computeStepSize` skips inactive inequalities with denominator
`aᵀp ≤ 0` (or below the `1e-10` floor) and active inequalities — only the
remaining candidates (`candAt`) matter; the returned `α` is
`min(1, min_i α_i)`; the blocking index is `none` exactly when `α = 1`;
otherwise it is the lowest factor index whose candidate step ties the
minimum within `1e-12`. -/
theorem computeStepSize_spec (ws : WorkingSet) (xk p : VV) :
    (computeStepSize ws xk p).1 ≤ 1 ∧
    (∀ i a, candAt ws xk p i = some a → (computeStepSize ws xk p).1 ≤ a) ∧
    ((computeStepSize ws xk p).1 = 1 ∨
      ∃ i a, candAt ws xk p i = some a ∧ (computeStepSize ws xk p).1 = a) ∧
    ((computeStepSize ws xk p).2 = none ↔ (computeStepSize ws xk p).1 = 1) ∧
    (∀ i, (computeStepSize ws xk p).2 = some i →
      (∃ a, candAt ws xk p i = some a ∧
        a ≤ (computeStepSize ws xk p).1 + stepTieTol) ∧
      (∀ j a, j < i → candAt ws xk p j = some a →
        (computeStepSize ws xk p).1 + stepTieTol < a)) := by
  by_cases hm : minAlphaAux xk p ws 1 = 1
  · rw [computeStepSize_of_min_one ws xk p hm]
    refine ⟨le_refl 1, ?_, Or.inl rfl, by simp, ?_⟩
    · intro i a hc
      rcases (candAt_eq_some ws xk p i a).mp hc with ⟨f, hf, hcand⟩
      have := minAlphaAux_le_cand xk p ws 1 i f a hf hcand
      rw [hm] at this
      exact this
    · intro i h
      cases h
  · rw [computeStepSize_of_min_ne ws xk p hm]
    have hattained := minAlphaAux_attained xk p ws 1
    rcases hattained with h1 | ⟨j, f, a, hj, hcand, hval⟩
    · exact absurd h1 hm
    · have hle1 : minAlphaAux xk p ws 1 ≤ 1 := minAlphaAux_le_init xk p ws 1
      have hsome : firstBlockingAux xk p (minAlphaAux xk p ws 1 + stepTieTol) 0 ws ≠
          none := by
        refine firstBlockingAux_exists xk p _ ws 0 j f a hj hcand ?_
        rw [← hval]
        have : (0 : ℚ) < stepTieTol := by norm_num [stepTieTol]
        linarith
      refine ⟨hle1, ?_, ?_, ?_, ?_⟩
      · intro i a' hc
        rcases (candAt_eq_some ws xk p i a').mp hc with ⟨f', hf', hcand'⟩
        exact minAlphaAux_le_cand xk p ws 1 i f' a' hf' hcand'
      · exact Or.inr ⟨j, a, (candAt_eq_some ws xk p j a).mpr ⟨f, hj, hcand⟩, hval⟩
      · constructor
        · intro h
          exact absurd h hsome
        · intro h
          exact absurd h hm
      · intro i h
        rcases firstBlockingAux_some xk p _ ws 0 i h with ⟨_, ⟨f', a', hget, hcand', hab⟩, hstrict⟩
        rw [Nat.sub_zero] at hget
        refine ⟨⟨a', (candAt_eq_some ws xk p i a').mpr ⟨f', hget, hcand'⟩, hab⟩, ?_⟩
        intro j' a2 hj' hc2
        rcases (candAt_eq_some ws xk p j' a2).mp hc2 with ⟨f2, hf2, hcand2⟩
        exact hstrict j' f2 a2 (by omega) hf2 hcand2

/-- C3: `identifyLeavingConstraint` returns `none` exactly when every
active multiplier is `≤ 0` within the tolerance `1e-9`; otherwise it
returns the index of the active inequality carrying the largest positive
multiplier, the lowest such index on ties. -/
theorem identifyLeavingConstraint_spec (ws : WorkingSet) (lams : Duals) :
    (identifyLeavingConstraint ws lams = none ↔
      ∀ j f, ws.get? j = some f → f.active = true →
        lamOf lams f.dualKey ≤ dualTol) ∧
    (∀ r, identifyLeavingConstraint ws lams = some r →
      ∃ f, ws.get? r = some f ∧ f.active = true ∧
        dualTol < lamOf lams f.dualKey ∧
        (∀ j' f', ws.get? j' = some f' → f'.active = true →
          lamOf lams f'.dualKey ≤ lamOf lams f.dualKey) ∧
        (∀ j' f', j' < r → ws.get? j' = some f' → f'.active = true →
          lamOf lams f'.dualKey < lamOf lams f.dualKey)) :=
  ⟨identifyLeavingConstraint_none_iff ws lams,
    fun r h => identifyLeavingConstraint_some ws lams r h⟩

/-- C5: `iterate` always increments the iteration count; on a non-trivial
primal delta (`‖p‖∞ > primal_tol`) it returns `x_k + α·p` with the input
duals unchanged, `converged = false`, and the blocking constraint (when
present) newly activated; `converged = true` arises only in the stationary
case with no leaving constraint. -/
theorem iterate_spec (or : Oracles) (s : QPState) :
    (iterate or s).iterations = s.iterations + 1 ∧
    (primalTol < normInf (or.primalDelta s.workingSet s.values) →
      (iterate or s).values =
        scaledAdd s.values
          (computeStepSize s.workingSet s.values
            (or.primalDelta s.workingSet s.values)).1
          (or.primalDelta s.workingSet s.values) ∧
      (iterate or s).duals = s.duals ∧
      (iterate or s).converged = false ∧
      (iterate or s).workingSet =
        (match (computeStepSize s.workingSet s.values
            (or.primalDelta s.workingSet s.values)).2 with
         | some i => setActive s.workingSet i true
         | none => s.workingSet)) ∧
    ((iterate or s).converged = true →
      normInf (or.primalDelta s.workingSet s.values) ≤ primalTol ∧
        identifyLeavingConstraint s.workingSet
          (or.dualSolve s.workingSet s.values) = none) := by
  refine ⟨iterate_iterations or s, ?_, ?_⟩
  · intro h
    rw [iterate_step or s (not_le.mpr h)]
    exact ⟨rfl, rfl, rfl, rfl⟩
  · intro h
    rcases iterate_converged_inv or s h with ⟨h1, h2, _⟩
    exact ⟨h1, h2⟩

/-- C8: in `identifyActiveConstraints`, a strictly interior inequality
(`residual < −feas_tol`) is activated exactly when warm start is enabled
and the stored dual for its dual key is strictly positive; a present but
zero or negative dual does not activate it. -/
theorem identifyActiveConstraints_interior_warm (ineqs : List InequalityFactor)
    (x0 : VV) (duals0 : Duals) (w : Bool) (ws : WorkingSet)
    (hok : identifyActiveConstraints ineqs x0 duals0 w = .ok ws) :
    ∀ j f, ineqs.get? j = some f → residual f x0 < -feasTol →
      ∃ fw, ws.get? j = some fw ∧ fw.A = f.A ∧ fw.b = f.b ∧
        fw.dualKey = f.dualKey ∧
        (fw.active = true ↔
          (w = true ∧ ∃ lam, lookupA duals0 f.dualKey = some lam ∧ 0 < lam)) := by
  intro j f hj hint
  rcases identifyActiveConstraints_ok x0 duals0 w ineqs ws hok j f hj with ⟨_, hget⟩
  rw [if_neg (not_le.mpr hint)] at hget
  refine ⟨_, hget, rfl, rfl, rfl, ?_⟩
  rcases hd : lookupA duals0 f.dualKey with _ | lam
  · simp only [hd]
    constructor
    · intro h
      simp at h
    · rintro ⟨_, lam, hlam, _⟩
      cases hlam
  · simp only [hd]
    constructor
    · intro h
      simp only [Bool.and_eq_true, decide_eq_true_eq] at h
      exact ⟨h.1, lam, rfl, h.2⟩
    · rintro ⟨hw, lam', hlam', hpos⟩
      injection hlam' with hlam'
      subst hlam'
      simp [hw, hpos]

/-- C10: `collectDualJacobians` returns the empty list when the key is
absent from the variable index (the `find` guard prevents an
out-of-bounds index lookup), and no A-term is contributed by a factor
whose `active()` flag is false. -/
theorem collectDualJacobians_spec (key : Key) (graph : List ConstraintFactor)
    (vi : VariableIndex) :
    (lookupA vi key = none → collectDualJacobians key graph vi = []) ∧
    (∀ ixs, lookupA vi key = some ixs →
      ∀ t, t ∈ collectDualJacobians key graph vi →
        ∃ i, i ∈ ixs ∧ ∃ f, graph.get? i = some f ∧ f.active = true ∧
          t = (f.dualKey, transposeM (f.getA (f.find key)))) := by
  constructor
  · intro h
    simp [collectDualJacobians, h]
  · intro ixs h t ht
    rw [collectDualJacobians] at ht
    rw [h] at ht
    exact collectAux_mem key graph ixs t ht

/-- C4: `buildDualGraph` emits exactly one dual factor per primal variable
appearing in at least one constraint (none for unconstrained variables);
the factor's A-terms are the transposed Jacobian blocks of the active
constraint factors touching the variable, keyed by their dual keys and
sourced from both the equality graph and the working set. -/
theorem buildDualGraph_spec (eqs ws : List ConstraintFactor) (gradf : Key → Vec) :
    (buildDualGraph eqs ws gradf).map DualFactor.primalKey = constrainedKeys eqs ws ∧
    (constrainedKeys eqs ws).Nodup ∧
    (∀ k, k ∈ constrainedKeys eqs ws ↔ ∃ f, (f ∈ eqs ∨ f ∈ ws) ∧ k ∈ f.keys) ∧
    (∀ df, df ∈ buildDualGraph eqs ws gradf →
      df.Aterms = activeAterms df.primalKey eqs ++ activeAterms df.primalKey ws ∧
      df.rhs = gradf df.primalKey) := by
  refine ⟨?_, ?_, ?_, ?_⟩
  · rw [buildDualGraph, List.map_map]
    exact List.map_id _
  · exact List.nodup_dedup _
  · intro k
    rw [constrainedKeys, List.mem_dedup, List.mem_append, graphKeys_mem, graphKeys_mem]
    constructor
    · rintro (⟨f, hf, hk⟩ | ⟨f, hf, hk⟩)
      · exact ⟨f, Or.inl hf, hk⟩
      · exact ⟨f, Or.inr hf, hk⟩
    · rintro ⟨f, hf | hf, hk⟩
      · exact Or.inl ⟨f, hf, hk⟩
      · exact Or.inr ⟨f, hf, hk⟩
  · intro df hdf
    rcases List.mem_map.mp hdf with ⟨k, _, hk⟩
    subst hk
    constructor
    · show collectDualJacobians k eqs (buildVariableIndex eqs) ++
        collectDualJacobians k ws (buildVariableIndex ws) = _
      rw [collectDualJacobians_canonical, collectDualJacobians_canonical]
    · rfl

/-- C1 (amended): when `optimize` returns a converged state, every active
inequality in the working set has a multiplier at most `dual_tol`.  (The
primal-feasibility half of the original claim fails, see the
counterexample.) -/
theorem optimize_dual_feasibility_at_convergence (or : Oracles)
    (ineqs : List InequalityFactor) (x0 : VV) (d0 : Duals) (w : Bool)
    (s : QPState) (hok : optimizeState or ineqs x0 d0 w = .ok s)
    (hconv : s.converged = true) :
    ∀ i f, s.workingSet.get? i = some f → f.active = true →
      lamOf s.duals f.dualKey ≤ dualTol := by
  rcases optimizeState_ok or ineqs x0 d0 w s hok with ⟨_, t, ht⟩
  have hconv' : (iterate or t).converged = true := by
    rw [← ht]
    exact hconv
  rcases iterate_converged_inv or t hconv' with ⟨_, hnone, hrec⟩
  intro i f hget ha
  have hws : s.workingSet = t.workingSet := by
    rw [ht, hrec]
  have hduals : s.duals = or.dualSolve t.workingSet t.values := by
    rw [ht, hrec]
  rw [hduals]
  refine (identifyLeavingConstraint_none_iff t.workingSet _).mp hnone i f ?_ ha
  rw [← hws]
  exact hget

/-- C6 (amended): an initial point violating some inequality by more than
`feas_tol` makes `optimize` fail with `InfeasibleInitial` before any
iteration runs — the result is identical for every inner solver, so no
iterate is consulted; the error itself carries only a fixed description
and no data identifying the violated constraint(s). -/
theorem optimize_infeasible_initial (ineqs : List InequalityFactor) (x0 : VV)
    (h : ∃ j f, ineqs.get? j = some f ∧ feasTol < residual f x0) :
    ∀ (or : Oracles) (d0 : Duals) (w : Bool),
      optimizeState or ineqs x0 d0 w = .error .infeasibleInitialValues := by
  intro or d0 w
  unfold optimizeState
  rw [identifyActiveConstraints_error x0 d0 w ineqs h]

/-- A trivial inner solver: zero primal delta, empty duals. -/
def zeroOracle : Oracles :=
  { primalDelta := fun _ _ => [], dualSolve := fun _ _ => [] }

/-- Inequality `x₀ ≤ 0`. -/
def g1 : InequalityFactor := { A := [(0, [1])], b := 0, dualKey := 50, active := false }

/-- Inequality `−x₀ ≤ 0`. -/
def g2 : InequalityFactor := { A := [(0, [-1])], b := 0, dualKey := 51, active := false }

def x0vA : VV := [(0, [1])]

def x0vB : VV := [(0, [-1])]

/-- C6: counterexample to "the raised error carries which constraint(s)
are violated".  Two infeasible starts that violate different constraints
(`x0vA` violates only `g1`, `x0vB` violates only `g2`) produce the very
same error value `infeasibleInitialValues`, which has no payload (the
source class at QPSolver.h:204-219 stores only a fixed description
string), so the error cannot identify the violated constraint. -/
theorem optimize_infeasible_initial_counterexample :
    optimizeState zeroOracle [g1, g2] x0vA [] true =
      .error .infeasibleInitialValues ∧
    optimizeState zeroOracle [g1, g2] x0vB [] true =
      .error .infeasibleInitialValues ∧
    feasTol < residual g1 x0vA ∧ residual g2 x0vA ≤ feasTol ∧
    feasTol < residual g2 x0vB ∧ residual g1 x0vB ≤ feasTol := by
  have hA : identifyActiveConstraints [g1, g2] x0vA [] true =
      .error .infeasibleInitialValues := by
    norm_num [identifyActiveConstraints, residual, rowDot, dot, lookupA,
      feasTol, g1, g2, x0vA]
  have hB : identifyActiveConstraints [g1, g2] x0vB [] true =
      .error .infeasibleInitialValues := by
    norm_num [identifyActiveConstraints, residual, rowDot, dot, lookupA,
      feasTol, g1, g2, x0vB]
  refine ⟨?_, ?_, ?_, ?_, ?_, ?_⟩
  · unfold optimizeState
    rw [hA]
  · unfold optimizeState
    rw [hB]
  · norm_num [residual, rowDot, dot, lookupA, feasTol, g1, x0vA]
  · norm_num [residual, rowDot, dot, lookupA, feasTol, g2, x0vA]
  · norm_num [residual, rowDot, dot, lookupA, feasTol, g2, x0vB]
  · norm_num [residual, rowDot, dot, lookupA, feasTol, g1, x0vB]

/-- C7 (amended): `optimize` loops `iterate` until convergence or the
fixed iteration cap of 100 (`maxIterations`; the source declaration of
`optimize` takes only `initialValues`, `duals` and `useWarmStart`, so the
cap is not a caller-suppliable option); a successful result is converged,
and non-convergence produces `MaxIterationsExceeded` carrying the last
(non-converged) state, whose iteration count is exactly 100. -/
theorem optimize_iteration_cap (or : Oracles) (ineqs : List InequalityFactor)
    (x0 : VV) (d0 : Duals) (w : Bool) :
    maxIterations = 100 ∧
    (∀ s, optimizeState or ineqs x0 d0 w = .ok s → s.converged = true) ∧
    (∀ s, optimizeState or ineqs x0 d0 w = .error (.maxIterationsExceeded s) →
      s.converged = false ∧ s.iterations = 100) := by
  refine ⟨rfl, ?_, ?_⟩
  · intro s h
    exact (optimizeState_ok or ineqs x0 d0 w s h).1
  · intro s h
    rcases optimizeState_error_max or ineqs x0 d0 w s h with ⟨h1, h2⟩
    exact ⟨h1, h2⟩

/-- Projection extracting the state carried by a `MaxIterationsExceeded`
result. -/
def lastErrorState : Except QPError QPState → Option QPState
  | .error (.maxIterationsExceeded s) => some s
  | _ => none

/-- An inner solver whose primal delta is always the unit step: the loop
never becomes stationary and never converges. -/
def driftOracle : Oracles :=
  { primalDelta := fun _ _ => [(0, [1])], dualSolve := fun _ _ => [] }

theorem driftOracle_iterate_not_converged (s : QPState) :
    (iterate driftOracle s).converged = false := by
  have hp : ¬ normInf (driftOracle.primalDelta s.workingSet s.values) ≤ primalTol := by
    norm_num [driftOracle, normInf, vnormInf, primalTol, absQ, max_def]
  rw [iterate_step driftOracle s hp]

theorem driftOracle_loop_error :
    ∀ (f : Nat) (s : QPState), s.converged = false →
      (lastErrorState (optimizeLoop driftOracle f s)).map QPState.iterations =
        some (s.iterations + f) := by
  intro f
  induction f with
  | zero =>
    intro s h
    rw [optimizeLoop_zero driftOracle s h]
    rfl
  | succ f ih =>
    intro s h
    rw [optimizeLoop_step driftOracle f s h]
    rw [ih (iterate driftOracle s) (driftOracle_iterate_not_converged s)]
    rw [iterate_iterations]
    congr 1
    omega

/-- C7: counterexample to "max_iterations can be user-provided as the
max_iters option of optimize".  The source's `optimize`
(QPSolver.h:196-197) accepts only `initialValues`, `duals` and
`useWarmStart`; on a run that never converges, the
`MaxIterationsExceeded` state records exactly 100 iterations no matter
how every available argument of `optimize` is set. -/
theorem optimize_iteration_cap_counterexample :
    (lastErrorState (optimizeState driftOracle [] [(0, [0])] [] true)).map
      QPState.iterations = some 100 ∧
    (lastErrorState (optimizeState driftOracle [] [(0, [0])] [(5, 1)] false)).map
      QPState.iterations = some 100 := by
  constructor
  · have h0 : identifyActiveConstraints [] [(0, [0])] [] true = .ok [] := rfl
    unfold optimizeState
    rw [h0]
    rw [driftOracle_loop_error maxIterations _ rfl]
    rfl
  · have h0 : identifyActiveConstraints [] [(0, [0])] [(5, 1)] false = .ok [] := rfl
    unfold optimizeState
    rw [h0]
    rw [driftOracle_loop_error maxIterations _ rfl]
    rfl

/-! Concrete run refuting the primal-feasibility half of the termination
invariant.  One inequality `x₀ ≤ 0` starts on the boundary band
(`residual = 1e-7 = feas_tol`, hence feasible and activated).  The first
inner solve is stationary (`p = −1e-7` on `x₀`, satisfying the active row
exactly at `x + p`) and the dual solve yields `λ = 1 > dual_tol`, so the
constraint leaves the working set.  The next solve steps by
`p = (5·10⁻¹¹, 1)`: the constraint's denominator `aᵀp = 5·10⁻¹¹` is below
the `1e-10` floor, so the step engine skips it and takes `α = 1`, pushing
the residual to `feas_tol + 5·10⁻¹¹`.  The final solve is stationary with
no active constraint, so the solver converges — with the inactive
inequality violated by more than `feas_tol`. -/

def c1f1 : InequalityFactor := { A := [(0, [1])], b := 0, dualKey := 100, active := false }

def c1f1a : InequalityFactor := { A := [(0, [1])], b := 0, dualKey := 100, active := true }

def c1x0 : VV := [(0, [1/10^7]), (1, [0])]

def c1Or : Oracles :=
  { primalDelta := fun ws x =>
      match ws with
      | [f] =>
        if f.active then [(0, [-(1/10^7 : ℚ)]), (1, [0])]
        else if lookupA x 0 = some [1/10^7] then [(0, [1/(2*10^10 : ℚ)]), (1, [1])]
        else [(0, [0]), (1, [0])]
      | _ => [],
    dualSolve := fun ws _ =>
      match ws with
      | [f] => if f.active then [(100, 1)] else []
      | _ => [] }

def c1s0 : QPState :=
  { values := c1x0, duals := [], workingSet := [c1f1a], converged := false, iterations := 0 }

def c1s1 : QPState :=
  { values := c1x0, duals := [], workingSet := [c1f1], converged := false, iterations := 1 }

def c1s2 : QPState :=
  { values := [(0, [1/10^7 + 1/(2*10^10)]), (1, [1])], duals := [],
    workingSet := [c1f1], converged := false, iterations := 2 }

def c1Final : QPState :=
  { values := [(0, [1/10^7 + 1/(2*10^10)]), (1, [1])], duals := [],
    workingSet := [c1f1], converged := true, iterations := 3 }

/-- C1: counterexample to the primal-feasibility half of the claim: an
accepted QP with a feasible start (`residual ≤ feas_tol`), inner solves
that satisfy the active rows exactly, and a converged result whose
inactive inequality violates `aᵀx* ≤ b + feas_tol`. -/
theorem optimize_primal_feasibility_counterexample :
    residual c1f1 c1x0 ≤ feasTol ∧
    optimizeState c1Or [c1f1] c1x0 [] true = .ok c1Final ∧
    c1Final.converged = true ∧
    c1Final.workingSet.get? 0 = some c1f1 ∧ c1f1.active = false ∧
    c1f1.b + feasTol < rowDot c1f1.A c1Final.values := by
  have hia : identifyActiveConstraints [c1f1] c1x0 [] true = .ok [c1f1a] := by
    norm_num [identifyActiveConstraints, residual, rowDot, dot, lookupA, feasTol,
      c1f1, c1f1a, c1x0]
  have hit1 : iterate c1Or c1s0 = c1s1 := by
    norm_num [iterate, identifyLeavingConstraint, ilcAux, lamOf, lookupA, eraseA,
      normInf, vnormInf, primalTol, dualTol, setActive, c1Or, c1s0, c1s1, c1f1,
      c1f1a, c1x0, absQ, max_def]
  have hit2 : iterate c1Or c1s1 = c1s2 := by
    norm_num [iterate, identifyLeavingConstraint, ilcAux, lamOf, lookupA, eraseA,
      normInf, vnormInf, primalTol, dualTol, denFloor, stepTieTol, setActive,
      computeStepSize, minAlphaAux, firstBlockingAux, alphaCand, rowDot, dot,
      scaledAdd, vaxpy, c1Or, c1s1, c1s2, c1f1, c1x0, absQ, max_def]
  have hit3 : iterate c1Or c1s2 = c1Final := by
    norm_num [iterate, identifyLeavingConstraint, ilcAux, lamOf, lookupA, eraseA,
      normInf, vnormInf, primalTol, dualTol, setActive, c1Or, c1s2, c1Final, c1f1,
      c1x0, absQ, max_def]
  have hloop : optimizeLoop c1Or maxIterations c1s0 = .ok c1Final := by
    calc optimizeLoop c1Or maxIterations c1s0
        = optimizeLoop c1Or 99 (iterate c1Or c1s0) := optimizeLoop_step c1Or 99 c1s0 rfl
      _ = optimizeLoop c1Or 99 c1s1 := by rw [hit1]
      _ = optimizeLoop c1Or 98 (iterate c1Or c1s1) := optimizeLoop_step c1Or 98 c1s1 rfl
      _ = optimizeLoop c1Or 98 c1s2 := by rw [hit2]
      _ = optimizeLoop c1Or 97 (iterate c1Or c1s2) := optimizeLoop_step c1Or 97 c1s2 rfl
      _ = optimizeLoop c1Or 97 c1Final := by rw [hit3]
      _ = .ok c1Final := optimizeLoop_done c1Or 97 c1Final rfl
  refine ⟨?_, ?_, rfl, rfl, rfl, ?_⟩
  · norm_num [residual, rowDot, dot, lookupA, feasTol, c1f1, c1x0]
  · unfold optimizeState
    rw [hia]
    exact hloop
  · norm_num [rowDot, dot, lookupA, feasTol, c1f1, c1Final]

/-- C9 (amended): restarting `optimize` at `(x*, λ*)` with warm start
converges in exactly one iteration and returns `x*` unchanged, provided
the working set rebuilt at `x*` leaves the first inner solve stationary
and its dual solution admits no leaving constraint.  (Unconditionally the
claim fails: the boundary band of `feas_tol` can re-activate constraints
that were inactive at `x*`, forcing extra iterations and moving the
solution — see the counterexample.) -/
theorem optimize_warm_restart_single_iteration (or : Oracles)
    (ineqs : List InequalityFactor) (xs : VV) (ds : Duals) (ws0 : WorkingSet)
    (h1 : identifyActiveConstraints ineqs xs ds true = .ok ws0)
    (h2 : normInf (or.primalDelta ws0 xs) ≤ primalTol)
    (h3 : identifyLeavingConstraint ws0 (or.dualSolve ws0 xs) = none) :
    optimizeState or ineqs xs ds true =
      .ok { values := xs, duals := or.dualSolve ws0 xs, workingSet := ws0,
            converged := true, iterations := 1 } := by
  unfold optimizeState
  rw [h1]
  have hit : iterate or ⟨xs, ds, ws0, false, 0⟩ =
      ⟨xs, or.dualSolve ws0 xs, ws0, true, 1⟩ := by
    unfold iterate
    dsimp only
    rw [if_pos h2, h3]
  calc optimizeLoop or maxIterations ⟨xs, ds, ws0, false, 0⟩
      = optimizeLoop or 99 (iterate or ⟨xs, ds, ws0, false, 0⟩) :=
        optimizeLoop_step or 99 _ rfl
    _ = optimizeLoop or 99 ⟨xs, or.dualSolve ws0 xs, ws0, true, 1⟩ := by rw [hit]
    _ = .ok ⟨xs, or.dualSolve ws0 xs, ws0, true, 1⟩ :=
        optimizeLoop_done or 99 _ rfl

/-! Concrete re-optimization run refuting the unconditional idempotence
claim.  Cost `½‖x − c‖²` with `c = (−5·10⁻⁸, 0)`; inequalities
`f1 : x₀ ≤ 0` and `f2 : x₀ + x₁/1000 ≤ 4·10⁻⁸`.  A first call from
`(−1, 0)` converges in two iterations at `x* = c` with no active
constraint and empty duals.  Restarting at `x*`, both inequalities lie in
the `feas_tol` boundary band and are re-activated; enforcing both as
equalities moves the solve to `(0, 1/25000)`, after which `f2` and then
`f1` leave the working set, and the solver re-converges only after five
iterations — at `(0, 0)`, not at `x*`.  The oracles implement the exact
constrained minimizers and exact dual solutions of this QP for each
working set encountered. -/

/-- Active flag of the working-set factor at an index. -/
def activeAt (ws : WorkingSet) (i : Nat) : Bool :=
  ((ws.get? i).map (fun f => f.active)).getD false

/-- First coordinate of the block of a key. -/
def coord (x : VV) (k : Key) : ℚ :=
  ((lookupA x k).getD []).headD 0

def c9f1 : InequalityFactor := { A := [(0, [1])], b := 0, dualKey := 100, active := false }

def c9f1a : InequalityFactor := { A := [(0, [1])], b := 0, dualKey := 100, active := true }

def c9f2 : InequalityFactor :=
  { A := [(0, [1]), (1, [1/1000])], b := 4/10^8, dualKey := 101, active := false }

def c9f2a : InequalityFactor :=
  { A := [(0, [1]), (1, [1/1000])], b := 4/10^8, dualKey := 101, active := true }

/-- The cost minimizer's first coordinate. -/
def c9c1 : ℚ := -(1/(2*10^7))

def c9Or : Oracles :=
  { primalDelta := fun ws x =>
      if activeAt ws 0 then
        if activeAt ws 1 then [(0, [0 - coord x 0]), (1, [1/25000 - coord x 1])]
        else [(0, [0 - coord x 0]), (1, [0 - coord x 1])]
      else
        if activeAt ws 1 then [(0, [0]), (1, [0])]
        else [(0, [c9c1 - coord x 0]), (1, [0 - coord x 1])],
    dualSolve := fun ws x =>
      if activeAt ws 0 then
        if activeAt ws 1 then
          [(100, (coord x 0 - c9c1) - coord x 1 * 1000), (101, coord x 1 * 1000)]
        else [(100, coord x 0 - c9c1)]
      else [] }

def x9start : VV := [(0, [-1]), (1, [0])]

def x9star : VV := [(0, [-(1/(2*10^7))]), (1, [0])]

def c9t0 : QPState :=
  { values := x9start, duals := [], workingSet := [c9f1, c9f2],
    converged := false, iterations := 0 }

def c9t1 : QPState :=
  { values := x9star, duals := [], workingSet := [c9f1, c9f2],
    converged := false, iterations := 1 }

def c9sFirst : QPState :=
  { values := x9star, duals := [], workingSet := [c9f1, c9f2],
    converged := true, iterations := 2 }

def c9u0 : QPState :=
  { values := x9star, duals := [], workingSet := [c9f1a, c9f2a],
    converged := false, iterations := 0 }

def c9u1 : QPState :=
  { values := [(0, [0]), (1, [1/25000])], duals := [],
    workingSet := [c9f1a, c9f2a], converged := false, iterations := 1 }

def c9u2 : QPState :=
  { values := [(0, [0]), (1, [1/25000])], duals := [(100, (1/(2*10^7) - 1/25 : ℚ))],
    workingSet := [c9f1a, c9f2], converged := false, iterations := 2 }

def c9u3 : QPState :=
  { values := [(0, [0]), (1, [0])], duals := [(100, (1/(2*10^7) - 1/25 : ℚ))],
    workingSet := [c9f1a, c9f2], converged := false, iterations := 3 }

def c9u4 : QPState :=
  { values := [(0, [0]), (1, [0])], duals := [],
    workingSet := [c9f1, c9f2], converged := false, iterations := 4 }

def c9sSecond : QPState :=
  { values := [(0, [0]), (1, [0])], duals := [],
    workingSet := [c9f1, c9f2], converged := true, iterations := 5 }

/-- C9: counterexample to "re-optimizing from a converged `(x*, λ*)` with
warm start converges in at most 1 iteration and returns the same x*": the
first call converges (to the true optimum of this QP) and the warm
restart then takes 5 iterations and returns a different point. -/
theorem optimize_warm_restart_counterexample :
    optimizeState c9Or [c9f1, c9f2] x9start [] true = .ok c9sFirst ∧
    c9sFirst.converged = true ∧ c9sFirst.values = x9star ∧ c9sFirst.duals = [] ∧
    optimizeState c9Or [c9f1, c9f2] x9star [] true = .ok c9sSecond ∧
    c9sSecond.converged = true ∧ c9sSecond.iterations = 5 ∧
    ¬ c9sSecond.values = x9star := by
  have hiaA : identifyActiveConstraints [c9f1, c9f2] x9start [] true =
      .ok [c9f1, c9f2] := by
    norm_num [identifyActiveConstraints, residual, rowDot, dot, lookupA, feasTol,
      c9f1, c9f2, x9start]
  have hiaB : identifyActiveConstraints [c9f1, c9f2] x9star [] true =
      .ok [c9f1a, c9f2a] := by
    norm_num [identifyActiveConstraints, residual, rowDot, dot, lookupA, feasTol,
      c9f1, c9f2, c9f1a, c9f2a, x9star]
  have hitA1 : iterate c9Or c9t0 = c9t1 := by
    norm_num [iterate, identifyLeavingConstraint, ilcAux, lamOf, lookupA, eraseA,
      normInf, vnormInf, primalTol, dualTol, denFloor, stepTieTol, setActive,
      computeStepSize, minAlphaAux, firstBlockingAux, alphaCand, rowDot, dot,
      scaledAdd, vaxpy, activeAt, coord, c9Or, c9c1, c9t0, c9t1, c9f1, c9f2,
      x9start, x9star, absQ, max_def]
  have hitA2 : iterate c9Or c9t1 = c9sFirst := by
    norm_num [iterate, identifyLeavingConstraint, ilcAux, lamOf, lookupA, eraseA,
      normInf, vnormInf, primalTol, dualTol, setActive, activeAt, coord, c9Or,
      c9c1, c9t1, c9sFirst, c9f1, c9f2, x9star, absQ, max_def]
  have hitB1 : iterate c9Or c9u0 = c9u1 := by
    norm_num [iterate, identifyLeavingConstraint, ilcAux, lamOf, lookupA, eraseA,
      normInf, vnormInf, primalTol, dualTol, denFloor, stepTieTol, setActive,
      computeStepSize, minAlphaAux, firstBlockingAux, alphaCand, rowDot, dot,
      scaledAdd, vaxpy, activeAt, coord, c9Or, c9c1, c9u0, c9u1, c9f1a, c9f2a,
      x9star, absQ, max_def]
  have hitB2 : iterate c9Or c9u1 = c9u2 := by
    norm_num [iterate, identifyLeavingConstraint, ilcAux, lamOf, lookupA, eraseA,
      normInf, vnormInf, primalTol, dualTol, setActive, activeAt, coord, c9Or,
      c9c1, c9u1, c9u2, c9f1a, c9f2a, c9f2, absQ, max_def]
  have hitB3 : iterate c9Or c9u2 = c9u3 := by
    norm_num [iterate, identifyLeavingConstraint, ilcAux, lamOf, lookupA, eraseA,
      normInf, vnormInf, primalTol, dualTol, denFloor, stepTieTol, setActive,
      computeStepSize, minAlphaAux, firstBlockingAux, alphaCand, rowDot, dot,
      scaledAdd, vaxpy, activeAt, coord, c9Or, c9c1, c9u2, c9u3, c9f1a, c9f2,
      absQ, max_def]
  have hitB4 : iterate c9Or c9u3 = c9u4 := by
    norm_num [iterate, identifyLeavingConstraint, ilcAux, lamOf, lookupA, eraseA,
      normInf, vnormInf, primalTol, dualTol, setActive, activeAt, coord, c9Or,
      c9c1, c9u3, c9u4, c9f1a, c9f1, c9f2, absQ, max_def]
  have hitB5 : iterate c9Or c9u4 = c9sSecond := by
    norm_num [iterate, identifyLeavingConstraint, ilcAux, lamOf, lookupA, eraseA,
      normInf, vnormInf, primalTol, dualTol, setActive, activeAt, coord, c9Or,
      c9c1, c9u4, c9sSecond, c9f1, c9f2, absQ, max_def]
  have hloopA : optimizeLoop c9Or maxIterations c9t0 = .ok c9sFirst := by
    calc optimizeLoop c9Or maxIterations c9t0
        = optimizeLoop c9Or 99 (iterate c9Or c9t0) := optimizeLoop_step c9Or 99 c9t0 rfl
      _ = optimizeLoop c9Or 99 c9t1 := by rw [hitA1]
      _ = optimizeLoop c9Or 98 (iterate c9Or c9t1) := optimizeLoop_step c9Or 98 c9t1 rfl
      _ = optimizeLoop c9Or 98 c9sFirst := by rw [hitA2]
      _ = .ok c9sFirst := optimizeLoop_done c9Or 98 c9sFirst rfl
  have hloopB : optimizeLoop c9Or maxIterations c9u0 = .ok c9sSecond := by
    calc optimizeLoop c9Or maxIterations c9u0
        = optimizeLoop c9Or 99 (iterate c9Or c9u0) := optimizeLoop_step c9Or 99 c9u0 rfl
      _ = optimizeLoop c9Or 99 c9u1 := by rw [hitB1]
      _ = optimizeLoop c9Or 98 (iterate c9Or c9u1) := optimizeLoop_step c9Or 98 c9u1 rfl
      _ = optimizeLoop c9Or 98 c9u2 := by rw [hitB2]
      _ = optimizeLoop c9Or 97 (iterate c9Or c9u2) := optimizeLoop_step c9Or 97 c9u2 rfl
      _ = optimizeLoop c9Or 97 c9u3 := by rw [hitB3]
      _ = optimizeLoop c9Or 96 (iterate c9Or c9u3) := optimizeLoop_step c9Or 96 c9u3 rfl
      _ = optimizeLoop c9Or 96 c9u4 := by rw [hitB4]
      _ = optimizeLoop c9Or 95 (iterate c9Or c9u4) := optimizeLoop_step c9Or 95 c9u4 rfl
      _ = optimizeLoop c9Or 95 c9sSecond := by rw [hitB5]
      _ = .ok c9sSecond := optimizeLoop_done c9Or 95 c9sSecond rfl
  refine ⟨?_, rfl, rfl, rfl, ?_, rfl, rfl, ?_⟩
  · unfold optimizeState
    rw [hiaA]
    exact hloopA
  · unfold optimizeState
    rw [hiaB]
    exact hloopB
  · norm_num [c9sSecond, x9star]

/-! Witness scenarios: concrete instantiations of each theorem with
hypotheses. -/

def w1f : InequalityFactor := { A := [(0, [1])], b := 0, dualKey := 7, active := false }

def w1fa : InequalityFactor := { A := [(0, [1])], b := 0, dualKey := 7, active := true }

def w1Or : Oracles :=
  { primalDelta := fun _ _ => [], dualSolve := fun _ _ => [(7, -1)] }

def w1s : QPState :=
  { values := [(0, [0])], duals := [(7, -1)], workingSet := [w1fa],
    converged := true, iterations := 1 }

theorem w1run : optimizeState w1Or [w1f] [(0, [0])] [] true = .ok w1s := by
  have hia : identifyActiveConstraints [w1f] [(0, [0])] [] true = .ok [w1fa] := by
    norm_num [identifyActiveConstraints, residual, rowDot, dot, lookupA, feasTol,
      w1f, w1fa]
  have hit : iterate w1Or ⟨[(0, [0])], [], [w1fa], false, 0⟩ = w1s := by
    norm_num [iterate, w1Or, normInf, vnormInf, primalTol, dualTol,
      identifyLeavingConstraint, ilcAux, lamOf, lookupA, w1fa, w1s, absQ, max_def]
  unfold optimizeState
  rw [hia]
  calc optimizeLoop w1Or maxIterations ⟨[(0, [0])], [], [w1fa], false, 0⟩
      = optimizeLoop w1Or 99 (iterate w1Or ⟨[(0, [0])], [], [w1fa], false, 0⟩) :=
        optimizeLoop_step w1Or 99 _ rfl
    _ = optimizeLoop w1Or 99 w1s := by rw [hit]
    _ = .ok w1s := optimizeLoop_done w1Or 99 w1s rfl

theorem optimize_dual_feasibility_at_convergence_witness :
    lamOf w1s.duals w1fa.dualKey ≤ dualTol :=
  optimize_dual_feasibility_at_convergence w1Or [w1f] [(0, [0])] [] true w1s
    w1run rfl 0 w1fa rfl rfl

def w2ws : WorkingSet := [{ A := [(0, [1])], b := 1, dualKey := 9, active := false }]

def w2x : VV := [(0, [0])]

def w2p : VV := [(0, [2])]

theorem computeStepSize_spec_witness :
    (computeStepSize w2ws w2x w2p).1 ≤ 1 ∧
    (computeStepSize w2ws w2x w2p).1 ≤ 1 / 2 :=
  ⟨(computeStepSize_spec w2ws w2x w2p).1,
    (computeStepSize_spec w2ws w2x w2p).2.1 0 (1 / 2)
      (by norm_num [candAt, alphaCand, rowDot, dot, lookupA, denFloor, w2ws, w2x, w2p])⟩

def w3f : InequalityFactor := { A := [(0, [1])], b := 0, dualKey := 3, active := true }

theorem identifyLeavingConstraint_spec_witness :
    ∃ f, ([w3f] : WorkingSet).get? 0 = some f ∧ f.active = true ∧
      dualTol < lamOf [(3, 1)] f.dualKey ∧
      (∀ j' f', ([w3f] : WorkingSet).get? j' = some f' → f'.active = true →
        lamOf [(3, 1)] f'.dualKey ≤ lamOf [(3, 1)] f.dualKey) ∧
      (∀ j' f', j' < 0 → ([w3f] : WorkingSet).get? j' = some f' → f'.active = true →
        lamOf [(3, 1)] f'.dualKey < lamOf [(3, 1)] f.dualKey) :=
  (identifyLeavingConstraint_spec [w3f] [(3, 1)]).2 0
    (by norm_num [identifyLeavingConstraint, ilcAux, lamOf, lookupA, dualTol, w3f])

def w4e : ConstraintFactor :=
  { keys := [0], Ablocks := [[[1]]], dualKey := 20, active := true }

def w4grad : Key → Vec := fun _ => [3]

def w4df : DualFactor :=
  { primalKey := 0,
    Aterms := collectDualJacobians 0 [w4e] (buildVariableIndex [w4e]) ++
      collectDualJacobians 0 [] (buildVariableIndex []),
    rhs := w4grad 0 }

theorem buildDualGraph_spec_witness :
    (buildDualGraph [w4e] [] w4grad).map DualFactor.primalKey =
      constrainedKeys [w4e] [] ∧
    w4df.Aterms = activeAterms w4df.primalKey [w4e] ++
      activeAterms w4df.primalKey [] ∧
    w4df.rhs = w4grad w4df.primalKey :=
  ⟨(buildDualGraph_spec [w4e] [] w4grad).1,
    (buildDualGraph_spec [w4e] [] w4grad).2.2.2 w4df
      (List.mem_map.mpr ⟨0, by decide, rfl⟩)⟩

def w5s : QPState :=
  { values := [(0, [0])], duals := [(9, 1)], workingSet := [],
    converged := false, iterations := 0 }

theorem iterate_spec_witness :
    (iterate driftOracle w5s).iterations = 1 ∧
    (iterate driftOracle w5s).duals = w5s.duals ∧
    (iterate driftOracle w5s).converged = false := by
  have h := iterate_spec driftOracle w5s
  have hp : primalTol < normInf (driftOracle.primalDelta w5s.workingSet w5s.values) := by
    norm_num [driftOracle, normInf, vnormInf, primalTol, absQ, max_def]
  rcases h.2.1 hp with ⟨_, hd, hc, _⟩
  exact ⟨h.1, hd, hc⟩

theorem optimize_infeasible_initial_witness :
    optimizeState zeroOracle [g1] x0vA [] true = .error .infeasibleInitialValues :=
  optimize_infeasible_initial [g1] x0vA
    ⟨0, g1, rfl, by norm_num [residual, rowDot, dot, lookupA, feasTol, g1, x0vA]⟩
    zeroOracle [] true

def w7s : QPState :=
  { values := [(0, [0])], duals := [], workingSet := [],
    converged := true, iterations := 1 }

theorem w7run : optimizeState zeroOracle [] [(0, [0])] [] true = .ok w7s := by
  have hit : iterate zeroOracle ⟨[(0, [0])], [], [], false, 0⟩ = w7s := by
    norm_num [iterate, zeroOracle, normInf, vnormInf, primalTol,
      identifyLeavingConstraint, ilcAux, w7s]
  unfold optimizeState
  calc optimizeLoop zeroOracle maxIterations ⟨[(0, [0])], [], [], false, 0⟩
      = optimizeLoop zeroOracle 99 (iterate zeroOracle ⟨[(0, [0])], [], [], false, 0⟩) :=
        optimizeLoop_step zeroOracle 99 _ rfl
    _ = optimizeLoop zeroOracle 99 w7s := by rw [hit]
    _ = .ok w7s := optimizeLoop_done zeroOracle 99 w7s rfl

theorem optimize_iteration_cap_witness : w7s.converged = true :=
  (optimize_iteration_cap zeroOracle [] [(0, [0])] [] true).2.1 w7s w7run

def w8f : InequalityFactor := { A := [(0, [1])], b := 5, dualKey := 11, active := false }

def w8fa : InequalityFactor := { A := [(0, [1])], b := 5, dualKey := 11, active := true }

theorem identifyActiveConstraints_interior_warm_witness :
    ∃ fw, ([w8fa] : WorkingSet).get? 0 = some fw ∧ fw.A = w8f.A ∧ fw.b = w8f.b ∧
      fw.dualKey = w8f.dualKey ∧
      (fw.active = true ↔
        (true = true ∧
          ∃ lam, lookupA ([(11, 1)] : Duals) w8f.dualKey = some lam ∧ 0 < lam)) :=
  identifyActiveConstraints_interior_warm [w8f] [(0, [0])] [(11, 1)] true [w8fa]
    (by norm_num [identifyActiveConstraints, residual, rowDot, dot, lookupA,
      feasTol, w8f, w8fa])
    0 w8f rfl
    (by norm_num [residual, rowDot, dot, lookupA, feasTol, w8f])

theorem optimize_warm_restart_single_iteration_witness :
    optimizeState zeroOracle [] [(0, [2])] [] true =
      .ok { values := [(0, [2])], duals := zeroOracle.dualSolve [] [(0, [2])],
            workingSet := [], converged := true, iterations := 1 } :=
  optimize_warm_restart_single_iteration zeroOracle [] [(0, [2])] [] [] rfl
    (by norm_num [zeroOracle, normInf, primalTol]) rfl

def w10g : List ConstraintFactor :=
  [{ keys := [5], Ablocks := [[[2]]], dualKey := 30, active := false }]

theorem collectDualJacobians_spec_witness :
    collectDualJacobians 5 w10g [] = [] :=
  (collectDualJacobians_spec 5 w10g []).1 rfl

end QPSolver
